import Mathlib

/-!
Verification of the Mach-O `Binary` core (address resolution, views, patching)
against its natural-language specification.  The definitions below are a
shallow embedding of `src/MachO/Binary.cpp`: `uint64_t` arithmetic is `Nat`
with explicit reduction modulo `2 ^ 64`, C++ exceptions become `Option` /
`Except`, and the in-place mutation of a segment found by
`segment_from_virtual_address` becomes replacement of the first matching
segment command in the command list.
-/

namespace MachO

/-- The modulus of `uint64_t` arithmetic. -/
def W : Nat := 2 ^ 64

/-- `uint64_t` addition (wraps modulo `2 ^ 64`). -/
def add64 (a b : Nat) : Nat := (a + b) % W

/-- `uint64_t` subtraction (wraps modulo `2 ^ 64`). -/
def sub64 (a b : Nat) : Nat := (a % W + (W - b % W)) % W

/-- A section owned by a segment (`LIEF::MachO::Section`): name, file
offset, size and virtual address. -/
structure Section where
  name : String
  offset : Nat
  size : Nat
  virtual_address : Nat
deriving DecidableEq, Repr

/-- A segment command (`LIEF::MachO::SegmentCommand`): name, virtual range,
file range, the copied content bytes and the owned sections. -/
structure SegmentCommand where
  name : String
  virtual_address : Nat
  virtual_size : Nat
  file_offset : Nat
  file_size : Nat
  content : List Nat
  sections : List Section
deriving DecidableEq, Repr

/-- A symbol (`LIEF::MachO::Symbol`): a name and the external flag
(`Symbol::is_external()`), the sole classifier for import/export. -/
structure Symbol where
  name : String
  is_ext : Bool
deriving DecidableEq, Repr

/-- The polymorphic load-command sequence element.  `Binary.cpp`
distinguishes commands by `dynamic_cast` (segments, dylibs, dylinker) or by
the command type tag (`LC_MAIN`); the embedding uses a sum type.  `main`
carries the `MainCommand` relative entrypoint, `other` the raw command type
tag of any command the core's algorithms pass through untouched. -/
inductive LoadCommand where
  | segment : SegmentCommand → LoadCommand
  | dylib : String → LoadCommand
  | dylinker : String → LoadCommand
  | main : Nat → LoadCommand
  | other : Nat → LoadCommand
deriving DecidableEq, Repr

/-- The Mach-O header fields the core touches: the flags bitset and the
command-count / size-of-commands bookkeeping fields.
Modelled from the spec: `Header` is implemented outside `Binary.cpp`
(not under `src/`); the spec describes it as holding a flags bitset, which
is modelled as the list of set flag values. -/
structure Header where
  flags : List Nat
  ncmds : Nat
  sizeof_cmds : Nat
deriving DecidableEq, Repr

/-- The aggregate root: header, ordered command sequence, ordered symbol
sequence (`Binary::header_`, `Binary::commands_`, `Binary::symbols_`). -/
structure Binary where
  header : Header
  commands_ : List LoadCommand
  symbols_ : List Symbol
deriving DecidableEq, Repr

/-- The `MH_PIE` header flag. -/
def MH_PIE : Nat := 0x200000

/-- Modelled from the spec: `Header::has_flag` (implemented outside
`src/`); membership of the flag in the flags bitset. -/
def has_flag (h : Header) (f : Nat) : Bool := h.flags.contains f

/-- Modelled from the spec: `Header::remove_flag` (implemented outside
`src/`); removal of the flag from the flags bitset. -/
def remove_flag (h : Header) (f : Nat) : Header :=
  { h with flags := h.flags.filter (fun x => x != f) }

/-- The segment view of a command list: `Binary::segments()` keeps, in
command order, exactly the commands that are segment commands. -/
def segmentsOf (cmds : List LoadCommand) : List SegmentCommand :=
  cmds.filterMap fun c =>
    match c with
    | .segment s => some s
    | _ => none

/-- `Binary::segments()`. -/
def segments (b : Binary) : List SegmentCommand := segmentsOf b.commands_

/-- The predicate of `Binary::segment_from_virtual_address`:
`segment.virtual_address() <= a && a < segment.virtual_address() +
segment.virtual_size()` (exclusive upper bound, `uint64_t` addition). -/
def inVRange (s : SegmentCommand) (a : Nat) : Bool :=
  decide (s.virtual_address ≤ a) && decide (a < add64 s.virtual_address s.virtual_size)

/-- The predicate of `Binary::virtual_address_to_offset`:
`segment.virtual_address() <= a && segment.virtual_address() +
segment.virtual_size() >= a` (inclusive upper bound). -/
def inVRangeIncl (s : SegmentCommand) (a : Nat) : Bool :=
  decide (s.virtual_address ≤ a) && decide (a ≤ add64 s.virtual_address s.virtual_size)

/-- The predicate of `Binary::segment_from_offset`:
`segment.file_offset() <= o && o <= segment.file_offset() +
segment.file_size()` (inclusive on both ends). -/
def inFRange (s : SegmentCommand) (o : Nat) : Bool :=
  decide (s.file_offset ≤ o) && decide (o ≤ add64 s.file_offset s.file_size)

/-- `Binary::segment_from_virtual_address`: first segment in command order
whose half-open virtual range contains the address; `not_found` is `none`. -/
def segment_from_virtual_address (b : Binary) (a : Nat) : Option SegmentCommand :=
  (segments b).find? fun s => inVRange s a

/-- `Binary::segment_from_offset`: first segment in command order whose
closed file range contains the offset; `not_found` is `none`. -/
def segment_from_offset (b : Binary) (o : Nat) : Option SegmentCommand :=
  (segments b).find? fun s => inFRange s o

/-- `Binary::virtual_address_to_offset`: find the first segment with
`vaddr <= a <= vaddr + vsize`, then return
`a - (segment.vaddr - segment.file_offset)` in `uint64_t` arithmetic;
`conversion_error` is `none`. -/
def virtual_address_to_offset (b : Binary) (va : Nat) : Option Nat :=
  match (segments b).find? (fun s => inVRangeIncl s va) with
  | none => none
  | some s => some (sub64 va (sub64 s.virtual_address s.file_offset))

/-- `Binary::imagebase`: virtual address of the first segment named
`__TEXT`; `not_found` is `none`. -/
def imagebase (b : Binary) : Option Nat :=
  ((segments b).find? fun s => s.name == "__TEXT").map fun s => s.virtual_address

/-- The search of `Binary::entrypoint`: the first command whose command
type is `LC_MAIN`, yielding its `MainCommand::entrypoint()` payload. -/
def findMain : List LoadCommand → Option Nat
  | [] => none
  | .main e :: _ => some e
  | .segment _ :: rest => findMain rest
  | .dylib _ :: rest => findMain rest
  | .dylinker _ :: rest => findMain rest
  | .other _ :: rest => findMain rest

/-- `Binary::entrypoint`: `imagebase() + main_command->entrypoint()` for the
first `LC_MAIN` command; `not_found` (either from the command search or
propagated from `imagebase`) is `none`. -/
def entrypoint (b : Binary) : Option Nat :=
  match findMain b.commands_ with
  | none => none
  | some e => (imagebase b).map fun ib => add64 ib e

/-- The effect of `std::copy(patch.begin, patch.end, content.data() + off)`
on a buffer, in bounds: overwrite the bytes at positions
`off, off+1, ...` with the patch bytes, leaving the length unchanged. -/
def writeBytes : List Nat → Nat → List Nat → List Nat
  | [], _, _ => []
  | c :: cs, off + 1, p => c :: writeBytes cs off p
  | _ :: cs, 0, q :: qs => q :: writeBytes cs 0 qs
  | c :: cs, 0, [] => c :: cs

/-- A segment with its content overwritten at the segment-local offset of
address `a`, as both `Binary::patch_address` overloads do through
`segment.content(content)`. -/
def patchedSegment (s : SegmentCommand) (a : Nat) (p : List Nat) : SegmentCommand :=
  { s with content := writeBytes s.content (sub64 a s.virtual_address) p }

/-- The mutation performed by both `Binary::patch_address` overloads: the
first segment command covering `a` (the one `segment_from_virtual_address`
returns a reference into) gets its content overwritten at local offset
`a - segment.virtual_address()`. -/
def patchCommands (cmds : List LoadCommand) (a : Nat) (p : List Nat) : List LoadCommand :=
  match cmds with
  | [] => []
  | .segment s :: rest =>
    if inVRange s a then
      .segment (patchedSegment s a p) :: rest
    else
      .segment s :: patchCommands rest a p
  | .dylib n :: rest => .dylib n :: patchCommands rest a p
  | .dylinker n :: rest => .dylinker n :: patchCommands rest a p
  | .main e :: rest => .main e :: patchCommands rest a p
  | .other k :: rest => .other k :: patchCommands rest a p

/-- `Binary::patch_address(uint64_t, const std::vector<uint8_t>&)`:
resolve the owning segment (`not_found` is `none`), then copy the patch
bytes into its content at the segment-local offset. -/
def patch_address (b : Binary) (address : Nat) (patch : List Nat) : Option Binary :=
  match segment_from_virtual_address b address with
  | none => none
  | some _ => some { b with commands_ := patchCommands b.commands_ address patch }

/-- The outcome of the scalar patch overload: the `std::runtime_error` for
an oversized width (`InvalidArgument`), the `not_found` of the segment
lookup, or the mutated binary. -/
inductive PatchResult where
  | invalidArgument : PatchResult
  | notFound : PatchResult
  | ok : Binary → PatchResult
deriving DecidableEq, Repr

/-- The little-endian byte image of the low `size` bytes of `value`, as
`std::copy` from `reinterpret_cast<uint8_t*>(&patch_value)` reads them. -/
def bytesLE (value size : Nat) : List Nat :=
  (List.range size).map fun i => value / 2 ^ (8 * i) % 256

/-- `Binary::patch_address(uint64_t, uint64_t, size_t)`: reject
`size > sizeof(uint64_t) = 8` before anything else, then resolve the owning
segment and write the low `size` bytes of `value`, low byte first. -/
def patch_address_value (b : Binary) (address value size : Nat) : PatchResult :=
  if 8 < size then .invalidArgument
  else
    match segment_from_virtual_address b address with
    | none => .notFound
    | some _ => .ok { b with commands_ := patchCommands b.commands_ address (bytesLE value size) }

/-- `Binary::get_content_from_virtual_address`: resolve the owning segment
(`not_found` is `none`), clamp the requested size to the end of the content
buffer exactly as the source does (`uint64_t` arithmetic), and return the
slice `[offset, offset + checked_size)` of the content. -/
def get_content_from_virtual_address (b : Binary) (address size : Nat) : Option (List Nat) :=
  match segment_from_virtual_address b address with
  | none => none
  | some segment =>
    some ((segment.content.drop (sub64 address segment.virtual_address)).take
      (if segment.content.length < add64 (sub64 address segment.virtual_address) size then
        sub64 size
          (sub64 (add64 (sub64 address segment.virtual_address) size) segment.content.length)
      else size))

/-- `Binary::is_exported`: a symbol is exported iff its external flag is
not set. -/
def is_exported (s : Symbol) : Bool := !s.is_ext

/-- `Binary::is_imported`: a symbol is imported iff its external flag is
set. -/
def is_imported (s : Symbol) : Bool := s.is_ext

/-- `Binary::get_exported_symbols`: the symbol sequence filtered by
`is_exported`, in sequence order. -/
def get_exported_symbols (b : Binary) : List Symbol := b.symbols_.filter is_exported

/-- `Binary::get_imported_symbols`: the symbol sequence filtered by
`is_imported`, in sequence order. -/
def get_imported_symbols (b : Binary) : List Symbol := b.symbols_.filter is_imported

/-- `Binary::insert_command`: the body is commented out in the source; the
function only returns `*this->commands_.back()` (undefined on an empty
command list, modelled as `none`), leaving the binary untouched. -/
def insert_command (b : Binary) (_c : LoadCommand) : Option (Binary × LoadCommand) :=
  match b.commands_.getLast? with
  | none => none
  | some last => some (b, last)

/-- `Binary::disable_pie`: if the header has `MH_PIE`, remove it and return
`true`; otherwise return `false` and change nothing. -/
def disable_pie (b : Binary) : Bool × Binary :=
  if has_flag b.header MH_PIE then
    (true, { b with header := remove_flag b.header MH_PIE })
  else (false, b)

/-! ### Concrete instances (the worked example of the spec, §8) -/

/-- The example `__TEXT` segment of the spec: `vaddr = 0x100000000`,
`vsize = 0x2000`, with a 64-byte zero content buffer. -/
def exSeg : SegmentCommand :=
  { name := "__TEXT", virtual_address := 0x100000000, virtual_size := 0x2000,
    file_offset := 0, file_size := 0x2000,
    content := List.replicate 0x40 0, sections := [] }

/-- An example binary: an `LC_MAIN` command with relative entrypoint `0x10`,
the example `__TEXT` segment, the `MH_PIE` flag set, and one exported and
one imported symbol. -/
def exBin : Binary :=
  { header := { flags := [MH_PIE, 1], ncmds := 2, sizeof_cmds := 0x98 },
    commands_ := [.main 0x10, .segment exSeg],
    symbols_ := [{ name := "a", is_ext := false }, { name := "b", is_ext := true }] }

/-- `exSeg` after `patch_address(0x100000010, 0xAABB, 2)`: bytes `BB AA`
at local offset `0x10`. -/
def exSegP : SegmentCommand :=
  { exSeg with content := List.replicate 0x10 0 ++ [0xBB, 0xAA] ++ List.replicate 0x2E 0 }

/-- `exBin` after `patch_address(0x100000010, 0xAABB, 2)`. -/
def exBinP : Binary :=
  { exBin with commands_ := [.main 0x10, .segment exSegP] }

/-- `exSeg` after `patch_address(0x100000010, [1, 2, 3])`. -/
def exSegQ : SegmentCommand :=
  { exSeg with content := List.replicate 0x10 0 ++ [1, 2, 3] ++ List.replicate 0x2D 0 }

/-- `exBin` after `patch_address(0x100000010, [1, 2, 3])`. -/
def exBinQ : Binary :=
  { exBin with commands_ := [.main 0x10, .segment exSegQ] }

/-- A segment with virtual range `[0x1000, 0x1100)` and file offset
`0x400`, used to exercise the boundary of the conversion predicate. -/
def exC1seg : SegmentCommand :=
  { name := "__C1", virtual_address := 0x1000, virtual_size := 0x100,
    file_offset := 0x400, file_size := 0x100, content := [], sections := [] }

/-- A binary holding only `exC1seg`. -/
def exC1 : Binary :=
  { header := { flags := [], ncmds := 1, sizeof_cmds := 0x48 },
    commands_ := [.segment exC1seg], symbols_ := [] }

/-! ### Helper lemmas -/

/-- `uint64_t` subtraction agrees with truncated subtraction when no wrap
occurs. -/
theorem sub64_eq_of_le {a b : Nat} (hba : b ≤ a) (ha : a < W) : sub64 a b = a - b := by
  have hb : b < W := lt_of_le_of_lt hba ha
  have hW : 0 < W := by norm_num [W]
  unfold sub64
  rw [Nat.mod_eq_of_lt ha, Nat.mod_eq_of_lt hb]
  have h1 : a + (W - b) = (a - b) + W := by omega
  rw [h1, Nat.add_mod_right, Nat.mod_eq_of_lt (by omega)]

/-- `uint64_t` addition agrees with addition when no wrap occurs. -/
theorem add64_eq_of_lt {a b : Nat} (h : a + b < W) : add64 a b = a + b := by
  unfold add64
  exact Nat.mod_eq_of_lt h

/-- A successful `find?` splits the list at the first hit. -/
theorem find?_eq_some_split {α : Type _} {p : α → Bool} {l : List α} {x : α}
    (h : l.find? p = some x) :
    p x = true ∧ ∃ l1 l2, l = l1 ++ x :: l2 ∧ ∀ y ∈ l1, p y = false := by
  induction l with
  | nil => simp [List.find?] at h
  | cons a t ih =>
    by_cases hpa : p a = true
    · rw [List.find?_cons_of_pos _ hpa] at h
      injection h with h
      subst h
      exact ⟨hpa, [], t, rfl, by simp⟩
    · rw [List.find?_cons_of_neg _ (by simpa using hpa)] at h
      obtain ⟨hp, l1, l2, hsplit, hl1⟩ := ih h
      refine ⟨hp, a :: l1, l2, by simp [hsplit], ?_⟩
      intro y hy
      rcases List.mem_cons.mp hy with hya | hyl
      · subst hya
        simpa [Bool.not_eq_true] using hpa
      · exact hl1 y hyl

/-- `find?` returns the head of the suffix when everything before it
fails the predicate. -/
theorem find?_append_cons {α : Type _} (p : α → Bool) (l1 l2 : List α) (x : α)
    (hx : p x = true) (h1 : ∀ y ∈ l1, p y = false) :
    (l1 ++ x :: l2).find? p = some x := by
  induction l1 with
  | nil => simpa using List.find?_cons_of_pos l2 hx
  | cons a t ih =>
    have ha : p a = false := h1 a (by simp)
    simp only [List.cons_append]
    rw [List.find?_cons_of_neg _ (by simp [ha])]
    exact ih fun y hy => h1 y (by simp [hy])

/-- `find?` succeeds when some member satisfies the predicate. -/
theorem exists_find?_eq_some_of_mem {α : Type _} {p : α → Bool} {l : List α} {x : α}
    (hm : x ∈ l) (hx : p x = true) : ∃ y, l.find? p = some y := by
  cases hf : l.find? p with
  | some y => exact ⟨y, rfl⟩
  | none => exact absurd hx (by simpa using List.find?_eq_none.mp hf x hm)

/-- The in-bounds buffer write preserves the buffer length. -/
theorem writeBytes_length (l : List Nat) : ∀ (off : Nat) (p : List Nat),
    (writeBytes l off p).length = l.length := by
  induction l with
  | nil => intro off p; simp [writeBytes]
  | cons c cs ih =>
    intro off p
    cases off with
    | succ o => simp [writeBytes, ih]
    | zero =>
      cases p with
      | nil => simp [writeBytes]
      | cons q qs => simp [writeBytes, ih]

/-- Overwriting the same bytes twice equals overwriting them once. -/
theorem writeBytes_idem (l : List Nat) : ∀ (off : Nat) (p : List Nat),
    writeBytes (writeBytes l off p) off p = writeBytes l off p := by
  induction l with
  | nil => intro off p; simp [writeBytes]
  | cons c cs ih =>
    intro off p
    cases off with
    | succ o => simp [writeBytes, ih]
    | zero =>
      cases p with
      | nil => simp [writeBytes]
      | cons q qs => simp [writeBytes, ih]

/-- The byte written at position `off + i` is patch byte `i`. -/
theorem writeBytes_getD (l : List Nat) : ∀ (off : Nat) (p : List Nat) (i : Nat),
    i < p.length → off + i < l.length →
    (writeBytes l off p).getD (off + i) 0 = p.getD i 0 := by
  induction l with
  | nil =>
    intro off p i hip hil
    simp at hil
  | cons c cs ih =>
    intro off p i hip hil
    cases off with
    | succ o =>
      simp only [writeBytes]
      rw [show o + 1 + i = (o + i) + 1 from by omega, List.getD_cons_succ]
      exact ih o p i hip (by simp at hil; omega)
    | zero =>
      cases p with
      | nil => simp at hip
      | cons q qs =>
        cases i with
        | zero => simp [writeBytes]
        | succ j =>
          simp only [writeBytes, Nat.zero_add, List.getD_cons_succ]
          have := ih 0 qs j (by simpa using hip) (by simp at hil; omega)
          simpa using this

/-- Byte `i` of the little-endian image is the `i`-th low byte of the
value. -/
theorem bytesLE_getD (value size i : Nat) (h : i < size) :
    (bytesLE value size).getD i 0 = value / 2 ^ (8 * i) % 256 := by
  simp [bytesLE, List.getD_eq_getElem?_getD, List.getElem?_map, List.getElem?_range, h]

/-- The little-endian image has exactly `size` bytes. -/
theorem bytesLE_length (value size : Nat) : (bytesLE value size).length = size := by
  simp [bytesLE]

/-- The segment view of a command list headed by a segment command. -/
theorem segmentsOf_cons_segment (s : SegmentCommand) (rest : List LoadCommand) :
    segmentsOf (.segment s :: rest) = s :: segmentsOf rest := by
  simp [segmentsOf, List.filterMap_cons]

/-- The patched segment covers the same addresses as the original. -/
theorem inVRange_patched (s : SegmentCommand) (x a : Nat) (p : List Nat) :
    inVRange (patchedSegment s x p) a = inVRange s a := rfl

/-- Patching relocates `segment_from_virtual_address`'s answer: the first
covering segment of the patched command list is the first covering segment
of the original with its content overwritten at the local offset. -/
theorem patchCommands_find {a : Nat} {s : SegmentCommand} (p : List Nat) :
    ∀ {cmds : List LoadCommand},
    (segmentsOf cmds).find? (fun t => inVRange t a) = some s →
    (segmentsOf (patchCommands cmds a p)).find? (fun t => inVRange t a) =
      some (patchedSegment s a p) := by
  intro cmds
  induction cmds with
  | nil => intro h; simp [segmentsOf] at h
  | cons c rest ih =>
    intro h
    cases c with
    | segment t =>
      rw [segmentsOf_cons_segment] at h
      by_cases hp : inVRange t a = true
      · rw [@List.find?_cons_of_pos _ (fun u => inVRange u a) t (segmentsOf rest) hp] at h
        injection h with h
        subst h
        simp only [patchCommands, hp, if_true, segmentsOf_cons_segment]
        exact List.find?_cons_of_pos _ (by rw [inVRange_patched]; exact hp)
      · rw [@List.find?_cons_of_neg _ (fun u => inVRange u a) t (segmentsOf rest) (by simpa using hp)] at h
        simp only [patchCommands, hp, if_false, Bool.false_eq_true, segmentsOf_cons_segment]
        rw [@List.find?_cons_of_neg _ (fun u => inVRange u a) t
          (segmentsOf (patchCommands rest a p)) (by simpa using hp)]
        exact ih h
    | dylib n =>
      rw [show segmentsOf (.dylib n :: rest) = segmentsOf rest from rfl] at h
      simp only [patchCommands]
      rw [show segmentsOf (.dylib n :: patchCommands rest a p) = segmentsOf (patchCommands rest a p) from rfl]
      exact ih h
    | dylinker n =>
      rw [show segmentsOf (.dylinker n :: rest) = segmentsOf rest from rfl] at h
      simp only [patchCommands]
      rw [show segmentsOf (.dylinker n :: patchCommands rest a p) = segmentsOf (patchCommands rest a p) from rfl]
      exact ih h
    | main e =>
      rw [show segmentsOf (.main e :: rest) = segmentsOf rest from rfl] at h
      simp only [patchCommands]
      rw [show segmentsOf (.main e :: patchCommands rest a p) = segmentsOf (patchCommands rest a p) from rfl]
      exact ih h
    | other k =>
      rw [show segmentsOf (.other k :: rest) = segmentsOf rest from rfl] at h
      simp only [patchCommands]
      rw [show segmentsOf (.other k :: patchCommands rest a p) = segmentsOf (patchCommands rest a p) from rfl]
      exact ih h

/-- Applying the same patch to the command list twice equals applying it
once. -/
theorem patchCommands_idem (cmds : List LoadCommand) (a : Nat) (p : List Nat) :
    patchCommands (patchCommands cmds a p) a p = patchCommands cmds a p := by
  induction cmds with
  | nil => rfl
  | cons c rest ih =>
    cases c with
    | segment t =>
      by_cases hp : inVRange t a = true
      · simp only [patchCommands, hp, if_true]
        simp only [patchCommands, inVRange_patched, hp, if_true]
        simp [patchedSegment, writeBytes_idem]
      · simp only [patchCommands, hp, if_false, Bool.false_eq_true, ih]
    | dylib n => simp only [patchCommands, ih]
    | dylinker n => simp only [patchCommands, ih]
    | main e => simp only [patchCommands, ih]
    | other k => simp only [patchCommands, ih]

/-- The code's half-open virtual-range test, as a proposition. -/
theorem inVRange_iff (s : SegmentCommand) (a : Nat) :
    inVRange s a = true ↔
      s.virtual_address ≤ a ∧ a < add64 s.virtual_address s.virtual_size := by
  simp [inVRange]

/-- The conversion's inclusive virtual-range test, as a proposition. -/
theorem inVRangeIncl_iff (s : SegmentCommand) (a : Nat) :
    inVRangeIncl s a = true ↔
      s.virtual_address ≤ a ∧ a ≤ add64 s.virtual_address s.virtual_size := by
  simp [inVRangeIncl]

/-- The code's closed file-range test, as a proposition. -/
theorem inFRange_iff (s : SegmentCommand) (o : Nat) :
    inFRange s o = true ↔
      s.file_offset ≤ o ∧ o ≤ add64 s.file_offset s.file_size := by
  simp [inFRange]

/-- Unfolding of `segment_from_virtual_address`. -/
theorem segment_from_virtual_address_def (b : Binary) (a : Nat) :
    segment_from_virtual_address b a = (segments b).find? (fun s => inVRange s a) := rfl

/-- Unfolding of `segment_from_offset`. -/
theorem segment_from_offset_def (b : Binary) (o : Nat) :
    segment_from_offset b o = (segments b).find? (fun s => inFRange s o) := rfl

/-! ### Claim theorems -/

/-- C2: for every segment SEG of the binary and every address `a` with
`SEG.vaddr ≤ a < SEG.vaddr + SEG.vsize`, `segment_from_virtual_address a`
returns the first segment in command order whose half-open range covers
`a` — SEG itself when no other segment's range covers `a` — and for every
address covered by no segment it fails with `NotFound` (`none`). -/
theorem segment_from_virtual_address_spec (b : Binary) (a : Nat) :
    (∀ SEG, SEG ∈ segments b →
      SEG.virtual_address ≤ a → a < add64 SEG.virtual_address SEG.virtual_size →
      (∃ s l1 l2, segment_from_virtual_address b a = some s ∧
        segments b = l1 ++ s :: l2 ∧
        s.virtual_address ≤ a ∧ a < add64 s.virtual_address s.virtual_size ∧
        (∀ t ∈ l1, ¬ (t.virtual_address ≤ a ∧ a < add64 t.virtual_address t.virtual_size))) ∧
      ((∀ t ∈ segments b, t.virtual_address ≤ a → a < add64 t.virtual_address t.virtual_size →
          t = SEG) →
        segment_from_virtual_address b a = some SEG)) ∧
    ((∀ t ∈ segments b, ¬ (t.virtual_address ≤ a ∧ a < add64 t.virtual_address t.virtual_size)) →
      segment_from_virtual_address b a = none) := by
  constructor
  · intro SEG hmem h1 h2
    have hSEG : inVRange SEG a = true := (inVRange_iff SEG a).mpr ⟨h1, h2⟩
    obtain ⟨s, hs⟩ :=
      @exists_find?_eq_some_of_mem _ (fun u => inVRange u a) (segments b) SEG hmem hSEG
    rw [← segment_from_virtual_address_def] at hs
    constructor
    · obtain ⟨hps, l1, l2, hsplit, hl1⟩ := find?_eq_some_split hs
      obtain ⟨hs1, hs2⟩ := (inVRange_iff s a).mp hps
      refine ⟨s, l1, l2, hs, hsplit, hs1, hs2, ?_⟩
      intro t ht hct
      have hft := hl1 t ht
      rw [(inVRange_iff t a).mpr hct] at hft
      simp at hft
    · intro huniq
      have hmem_s := List.mem_of_find?_eq_some hs
      have hps := List.find?_some hs
      obtain ⟨hs1, hs2⟩ := (inVRange_iff s a).mp hps
      rw [← huniq s hmem_s hs1 hs2]
      exact hs
  · intro hnone
    rw [segment_from_virtual_address_def]
    exact List.find?_eq_none.mpr fun x hx hc => hnone x hx ((inVRange_iff x a).mp hc)

/-- C2 witness: on the example binary, `0x100000010` resolves to the
example `__TEXT` segment. -/
theorem segment_from_virtual_address_spec_witness :
    segment_from_virtual_address exBin 0x100000010 = some exSeg :=
  ((segment_from_virtual_address_spec exBin 0x100000010).1 exSeg
    (by decide) (by decide) (by decide)).2 (by decide)

/-- C6: `segment_from_offset` returns the first segment in command order
satisfying `file_offset ≤ o ≤ file_offset + file_size` — inclusive on both
ends, unlike the exclusive upper bound of `segment_from_virtual_address` —
and fails with `NotFound` (`none`) when no segment satisfies it. -/
theorem segment_from_offset_spec (b : Binary) (o : Nat) :
    (∀ SEG, SEG ∈ segments b →
      SEG.file_offset ≤ o → o ≤ add64 SEG.file_offset SEG.file_size →
      (∃ s l1 l2, segment_from_offset b o = some s ∧
        segments b = l1 ++ s :: l2 ∧
        s.file_offset ≤ o ∧ o ≤ add64 s.file_offset s.file_size ∧
        (∀ t ∈ l1, ¬ (t.file_offset ≤ o ∧ o ≤ add64 t.file_offset t.file_size))) ∧
      ((∀ t ∈ segments b, t.file_offset ≤ o → o ≤ add64 t.file_offset t.file_size → t = SEG) →
        segment_from_offset b o = some SEG)) ∧
    ((∀ t ∈ segments b, ¬ (t.file_offset ≤ o ∧ o ≤ add64 t.file_offset t.file_size)) →
      segment_from_offset b o = none) := by
  constructor
  · intro SEG hmem h1 h2
    have hSEG : inFRange SEG o = true := (inFRange_iff SEG o).mpr ⟨h1, h2⟩
    obtain ⟨s, hs⟩ :=
      @exists_find?_eq_some_of_mem _ (fun u => inFRange u o) (segments b) SEG hmem hSEG
    rw [← segment_from_offset_def] at hs
    constructor
    · obtain ⟨hps, l1, l2, hsplit, hl1⟩ := find?_eq_some_split hs
      obtain ⟨hs1, hs2⟩ := (inFRange_iff s o).mp hps
      refine ⟨s, l1, l2, hs, hsplit, hs1, hs2, ?_⟩
      intro t ht hct
      have hft := hl1 t ht
      rw [(inFRange_iff t o).mpr hct] at hft
      simp at hft
    · intro huniq
      have hmem_s := List.mem_of_find?_eq_some hs
      have hps := List.find?_some hs
      obtain ⟨hs1, hs2⟩ := (inFRange_iff s o).mp hps
      rw [← huniq s hmem_s hs1 hs2]
      exact hs
  · intro hnone
    rw [segment_from_offset_def]
    exact List.find?_eq_none.mpr fun x hx hc => hnone x hx ((inFRange_iff x o).mp hc)

/-- C6 witness: the boundary offset `0x2000 = file_offset + file_size` is
still resolved to the example segment (inclusive upper bound). -/
theorem segment_from_offset_spec_witness :
    segment_from_offset exBin 0x2000 = some exSeg :=
  ((segment_from_offset_spec exBin 0x2000).1 exSeg
    (by decide) (by decide) (by decide)).2 (by decide)

/-- C1 counterexample: in `exC1` the only segment has half-open virtual
range `[0x1000, 0x1100)`, so by the claim `virtual_address_to_offset 0x1100`
should fail with `ConversionError`; the code instead accepts the inclusive
boundary and returns `0x1100 - (0x1000 - 0x400) = 0x500`. -/
theorem virtual_address_to_offset_counterexample :
    segments exC1 = [exC1seg] ∧
    ¬ (exC1seg.virtual_address ≤ 0x1100 ∧
        0x1100 < add64 exC1seg.virtual_address exC1seg.virtual_size) ∧
    virtual_address_to_offset exC1 0x1100 = some 0x500 := by
  decide

/-- C1 (amended): `virtual_address_to_offset(va)` returns
`va - (segment.virtual_address - segment.file_offset)` (in `uint64_t`
arithmetic) where `segment` is the first segment in command order whose
INCLUSIVE range `[vaddr, vaddr + vsize]` contains `va`, and it fails with
`ConversionError` (`none`) exactly when no segment's inclusive range
contains `va`. -/
theorem virtual_address_to_offset_spec (b : Binary) (va : Nat) :
    (∀ s l1 l2, segments b = l1 ++ s :: l2 →
      s.virtual_address ≤ va → va ≤ add64 s.virtual_address s.virtual_size →
      (∀ t ∈ l1, ¬ (t.virtual_address ≤ va ∧ va ≤ add64 t.virtual_address t.virtual_size)) →
      virtual_address_to_offset b va =
        some (sub64 va (sub64 s.virtual_address s.file_offset))) ∧
    (virtual_address_to_offset b va = none ↔
      ∀ t ∈ segments b, ¬ (t.virtual_address ≤ va ∧ va ≤ add64 t.virtual_address t.virtual_size)) := by
  constructor
  · intro s l1 l2 hsplit h1 h2 hl1
    have hfind : (segments b).find? (fun t => inVRangeIncl t va) = some s := by
      rw [hsplit]
      refine find?_append_cons _ l1 l2 s ((inVRangeIncl_iff s va).mpr ⟨h1, h2⟩) ?_
      intro y hy
      by_cases hyc : inVRangeIncl y va = true
      · exact absurd ((inVRangeIncl_iff y va).mp hyc) (hl1 y hy)
      · simpa using hyc
    unfold virtual_address_to_offset
    rw [hfind]
  · unfold virtual_address_to_offset
    cases hfind : (segments b).find? (fun t => inVRangeIncl t va) with
    | none =>
      simp only [true_iff]
      intro t ht hc
      have h1 : ¬ inVRangeIncl t va = true := by
        simpa using List.find?_eq_none.mp hfind t ht
      exact h1 ((inVRangeIncl_iff t va).mpr hc)
    | some s =>
      simp only [reduceCtorEq, false_iff]
      intro hnone
      have := List.find?_some hfind
      exact hnone s (List.mem_of_find?_eq_some hfind) ((inVRangeIncl_iff s va).mp this)

/-- C1 witness (for the amended claim): on `exC1`, the boundary address
`0x1100` converts to offset `0x500`. -/
theorem virtual_address_to_offset_spec_witness :
    virtual_address_to_offset exC1 0x1100 = some 0x500 :=
  ((virtual_address_to_offset_spec exC1 0x1100).1 exC1seg [] []
    (by decide) (by decide) (by decide) (by decide)).trans (by decide)

/-- C3: the scalar patch fails with `InvalidArgument` exactly when
`size > 8` — and then no mutated state exists at all, every buffer being as
before; with `size ≤ 8` and a covering segment it succeeds, and the owning
segment of the patched binary is the old one with the low `size` bytes of
`value` written low-byte-first at local offset
`address - segment.virtual_address`. -/
theorem patch_address_value_spec (b : Binary) (addr value size : Nat) :
    (patch_address_value b addr value size = .invalidArgument ↔ 8 < size) ∧
    (∀ s, segment_from_virtual_address b addr = some s → size ≤ 8 →
      (∀ b', patch_address_value b addr value size = .ok b' →
        segment_from_virtual_address b' addr =
          some (patchedSegment s addr (bytesLE value size)) ∧
        (∀ i, i < size → sub64 addr s.virtual_address + i < s.content.length →
          (writeBytes s.content (sub64 addr s.virtual_address) (bytesLE value size)).getD
            (sub64 addr s.virtual_address + i) 0 = value / 2 ^ (8 * i) % 256)) ∧
      ∃ b', patch_address_value b addr value size = .ok b') := by
  constructor
  · by_cases hsz : 8 < size
    · simp [patch_address_value, hsz]
    · simp only [patch_address_value, if_neg hsz]
      cases hfind : segment_from_virtual_address b addr with
      | none => simp [hsz]
      | some s => simp [hsz]
  · intro s hfind hsz
    have hset : patch_address_value b addr value size =
        .ok { b with commands_ := patchCommands b.commands_ addr (bytesLE value size) } := by
      simp [patch_address_value, Nat.not_lt.mpr hsz, hfind]
    refine ⟨?_, _, hset⟩
    intro b' hb'
    rw [hset] at hb'
    injection hb' with hb'
    subst hb'
    constructor
    · rw [segment_from_virtual_address_def] at hfind
      exact patchCommands_find (bytesLE value size) hfind
    · intro i hi hil
      rw [writeBytes_getD s.content (sub64 addr s.virtual_address) (bytesLE value size) i
        (by rw [bytesLE_length]; exact hi) hil]
      exact bytesLE_getD value size i hi

/-- C3 witness: patching `0xAABB` with width 2 at `0x100000010` on the
example binary gives a binary whose owning segment carries `BB AA` at
local offset `0x10`; the width-9 call is rejected with `InvalidArgument`. -/
theorem patch_address_value_spec_witness :
    segment_from_virtual_address exBinP 0x100000010 =
      some (patchedSegment exSeg 0x100000010 (bytesLE 0xAABB 2)) :=
  ((((patch_address_value_spec exBin 0x100000010 0xAABB 2).2 exSeg
    (by decide) (by decide)).1) exBinP (by decide)).1

/-- Unfolding of `get_content_from_virtual_address` at a resolved
segment. -/
theorem get_content_eq_of_find (b : Binary) (addr size : Nat) (s : SegmentCommand)
    (h : segment_from_virtual_address b addr = some s) :
    get_content_from_virtual_address b addr size =
      some ((s.content.drop (sub64 addr s.virtual_address)).take
        (if s.content.length < add64 (sub64 addr s.virtual_address) size then
          sub64 size (sub64 (add64 (sub64 addr s.virtual_address) size) s.content.length)
        else size)) := by
  unfold get_content_from_virtual_address
  rw [h]

/-- C4: for an address covered by a segment, `get_content_from_virtual_address`
never errors: it returns the slice of the owning segment's content starting
at the local offset, silently truncated at the buffer end (a request
overrunning the buffer returns only the bytes that remain). -/
theorem get_content_from_virtual_address_spec (b : Binary) (addr size : Nat)
    (s : SegmentCommand) (h : segment_from_virtual_address b addr = some s)
    (hoff : sub64 addr s.virtual_address ≤ s.content.length)
    (hsz : sub64 addr s.virtual_address + size < W) :
    get_content_from_virtual_address b addr size =
      some ((s.content.drop (sub64 addr s.virtual_address)).take size) ∧
    ∀ l, get_content_from_virtual_address b addr size = some l →
      l.length = min size (s.content.length - sub64 addr s.virtual_address) := by
  have hadd : add64 (sub64 addr s.virtual_address) size = sub64 addr s.virtual_address + size :=
    add64_eq_of_lt hsz
  have hmain : get_content_from_virtual_address b addr size =
      some ((s.content.drop (sub64 addr s.virtual_address)).take size) := by
    rw [get_content_eq_of_find b addr size s h]
    by_cases hc : s.content.length < add64 (sub64 addr s.virtual_address) size
    · rw [if_pos hc]
      have hlen : s.content.length < sub64 addr s.virtual_address + size := by rwa [hadd] at hc
      have hsub1 : sub64 (add64 (sub64 addr s.virtual_address) size) s.content.length =
          sub64 addr s.virtual_address + size - s.content.length := by
        rw [hadd]
        exact sub64_eq_of_le (le_of_lt hlen) hsz
      have hsub2 : sub64 size (sub64 addr s.virtual_address + size - s.content.length) =
          s.content.length - sub64 addr s.virtual_address := by
        rw [sub64_eq_of_le (by omega) (by omega)]
        omega
      rw [hsub1, hsub2]
      congr 1
      rw [List.take_of_length_le (le_of_eq (List.length_drop _ _)),
        List.take_of_length_le (by rw [List.length_drop]; omega)]
    · rw [if_neg hc]
  refine ⟨hmain, ?_⟩
  intro l hl
  rw [hmain] at hl
  injection hl with hl
  subst hl
  rw [List.length_take, List.length_drop]

/-- C4 witness: requesting 100 bytes at local offset `0x38` of the 64-byte
example buffer returns the 8 remaining bytes, not an error. -/
theorem get_content_from_virtual_address_spec_witness :
    get_content_from_virtual_address exBin 0x100000038 100 = some (List.replicate 8 0) :=
  ((get_content_from_virtual_address_spec exBin 0x100000038 100 exSeg
    (by decide) (by decide) (by decide)).1).trans (by decide)

/-- The export/import filters split every symbol list's length. -/
theorem filter_ext_length (l : List Symbol) :
    (l.filter is_exported).length + (l.filter is_imported).length = l.length := by
  induction l with
  | nil => rfl
  | cons x t ih =>
    cases hx : x.is_ext
    · simp only [List.filter_cons, is_exported, is_imported, hx]
      simp only [Bool.not_false, if_true, if_false, Bool.false_eq_true, List.length_cons]
      omega
    · simp only [List.filter_cons, is_exported, is_imported, hx]
      simp only [Bool.not_true, if_true, if_false, Bool.false_eq_true, List.length_cons]
      omega

/-- C5: the external flag alone partitions the symbols — for every symbol
exactly one of `is_exported` / `is_imported` holds — and the exported and
imported views are exactly the symbols satisfying the respective predicate,
in underlying sequence order. -/
theorem symbol_partition_spec (b : Binary) :
    (∀ s, s ∈ b.symbols_ →
      (is_exported s = true ∧ is_imported s = false) ∨
      (is_exported s = false ∧ is_imported s = true)) ∧
    List.Sublist (get_exported_symbols b) b.symbols_ ∧
    List.Sublist (get_imported_symbols b) b.symbols_ ∧
    (∀ s, s ∈ get_exported_symbols b ↔ s ∈ b.symbols_ ∧ is_exported s = true) ∧
    (∀ s, s ∈ get_imported_symbols b ↔ s ∈ b.symbols_ ∧ is_imported s = true) ∧
    (get_exported_symbols b).length + (get_imported_symbols b).length = b.symbols_.length := by
  refine ⟨?_, List.filter_sublist _, List.filter_sublist _, ?_, ?_, filter_ext_length _⟩
  · intro s _
    cases hs : s.is_ext
    · exact Or.inl ⟨by simp [is_exported, hs], by simp [is_imported, hs]⟩
    · exact Or.inr ⟨by simp [is_exported, hs], by simp [is_imported, hs]⟩
  · intro s
    exact List.mem_filter
  · intro s
    exact List.mem_filter

/-- C5 witness: the non-external example symbol is exported and not
imported. -/
theorem symbol_partition_spec_witness :
    (is_exported { name := "a", is_ext := false } = true ∧
      is_imported { name := "a", is_ext := false } = false) ∨
    (is_exported { name := "a", is_ext := false } = false ∧
      is_imported { name := "a", is_ext := false } = true) :=
  (symbol_partition_spec exBin).1 { name := "a", is_ext := false } (by decide)

/-- C7: for an address covered by a segment and a patch that fits inside
the owning segment's content buffer, applying `patch_address` twice with
the same arguments yields the same binary — content buffers included — as
applying it once. -/
theorem patch_address_idem (b : Binary) (addr : Nat) (bytes : List Nat) (s : SegmentCommand)
    (hcov : segment_from_virtual_address b addr = some s)
    (hfit : sub64 addr s.virtual_address + bytes.length ≤ s.content.length) :
    (∀ b', patch_address b addr bytes = some b' → patch_address b' addr bytes = some b') ∧
    ∃ b', patch_address b addr bytes = some b' := by
  have hset : patch_address b addr bytes =
      some { b with commands_ := patchCommands b.commands_ addr bytes } := by
    simp [patch_address, hcov]
  refine ⟨?_, _, hset⟩
  intro b' hb'
  rw [hset] at hb'
  injection hb' with hb'
  subst hb'
  have hfind2 : segment_from_virtual_address
      { b with commands_ := patchCommands b.commands_ addr bytes } addr =
      some (patchedSegment s addr bytes) := by
    rw [segment_from_virtual_address_def] at hcov
    exact patchCommands_find bytes hcov
  simp [patch_address, hfind2, patchCommands_idem]

/-- C7 witness: patching `[1, 2, 3]` at `0x100000010` twice equals patching
once on the example binary. -/
theorem patch_address_idem_witness :
    patch_address exBinQ 0x100000010 [1, 2, 3] = some exBinQ :=
  (patch_address_idem exBin 0x100000010 [1, 2, 3] exSeg
    (by decide) (by decide)).1 exBinQ (by decide)

/-- A command list without any `LC_MAIN` command has no main command to
find. -/
theorem findMain_eq_none {cmds : List LoadCommand}
    (h : ∀ c ∈ cmds, ∀ e, c ≠ LoadCommand.main e) : findMain cmds = none := by
  induction cmds with
  | nil => rfl
  | cons c rest ih =>
    cases c with
    | main e => exact absurd rfl (h (.main e) (by simp) e)
    | segment s => exact ih fun c hc e => h c (by simp [hc]) e
    | dylib n => exact ih fun c hc e => h c (by simp [hc]) e
    | dylinker n => exact ih fun c hc e => h c (by simp [hc]) e
    | other k => exact ih fun c hc e => h c (by simp [hc]) e

/-- `findMain` returns the relative entrypoint of the first `LC_MAIN`
command. -/
theorem findMain_append_main (l1 : List LoadCommand) (e : Nat) (l2 : List LoadCommand)
    (h1 : ∀ c ∈ l1, ∀ x, c ≠ LoadCommand.main x) :
    findMain (l1 ++ LoadCommand.main e :: l2) = some e := by
  induction l1 with
  | nil => rfl
  | cons c rest ih =>
    cases c with
    | main x => exact absurd rfl (h1 (.main x) (by simp) x)
    | segment s =>
      simp only [List.cons_append, findMain]
      exact ih fun c hc x => h1 c (by simp [hc]) x
    | dylib n =>
      simp only [List.cons_append, findMain]
      exact ih fun c hc x => h1 c (by simp [hc]) x
    | dylinker n =>
      simp only [List.cons_append, findMain]
      exact ih fun c hc x => h1 c (by simp [hc]) x
    | other k =>
      simp only [List.cons_append, findMain]
      exact ih fun c hc x => h1 c (by simp [hc]) x

/-- C8: `entrypoint()` fails with `NotFound` (`none`) when no `LC_MAIN`
command exists, and otherwise returns
`imagebase() + main_command.relative_entrypoint` for the first `LC_MAIN`
command; `imagebase()` returns the virtual address of the first segment
named `__TEXT` and fails with `NotFound` (`none`) when no such segment
exists. -/
theorem entrypoint_imagebase_spec (b : Binary) :
    ((∀ c ∈ b.commands_, ∀ e, c ≠ LoadCommand.main e) → entrypoint b = none) ∧
    (∀ e ib, findMain b.commands_ = some e → imagebase b = some ib →
      entrypoint b = some (add64 ib e)) ∧
    (∀ l1 e l2, b.commands_ = l1 ++ LoadCommand.main e :: l2 →
      (∀ c ∈ l1, ∀ x, c ≠ LoadCommand.main x) → findMain b.commands_ = some e) ∧
    (∀ s l1 l2, segments b = l1 ++ s :: l2 → s.name = "__TEXT" →
      (∀ t ∈ l1, t.name ≠ "__TEXT") → imagebase b = some s.virtual_address) ∧
    ((∀ t ∈ segments b, t.name ≠ "__TEXT") → imagebase b = none) := by
  refine ⟨?_, ?_, ?_, ?_, ?_⟩
  · intro h
    unfold entrypoint
    rw [findMain_eq_none h]
  · intro e ib he hib
    unfold entrypoint
    rw [he, hib]
    rfl
  · intro l1 e l2 hsplit h1
    rw [hsplit]
    exact findMain_append_main l1 e l2 h1
  · intro s l1 l2 hsplit hname hl1
    unfold imagebase
    rw [hsplit, find?_append_cons _ l1 l2 s (by simp [hname]) (fun y hy => by simp [hl1 y hy])]
    rfl
  · intro h
    unfold imagebase
    rw [List.find?_eq_none.mpr fun x hx => by simp [h x hx]]
    rfl

/-- C8 witness: the example binary's entrypoint is
`imagebase + 0x10 = 0x100000010`. -/
theorem entrypoint_imagebase_spec_witness :
    entrypoint exBin = some 0x100000010 :=
  ((entrypoint_imagebase_spec exBin).2.1 0x10 0x100000000
    (by decide) (by decide)).trans (by decide)

/-- C9: on a binary with a non-empty command sequence, `insert_command`
leaves the whole binary — command sequence, header bookkeeping fields and
symbols — exactly as it was, and returns the last command already in the
sequence, not the argument. -/
theorem insert_command_spec (b : Binary) (c : LoadCommand) (h : b.commands_ ≠ []) :
    insert_command b c = some (b, b.commands_.getLast h) := by
  unfold insert_command
  rw [List.getLast?_eq_getLast b.commands_ h]

/-- C9 witness: inserting a dylib command into the example binary returns
the untouched binary paired with its pre-existing last command. -/
theorem insert_command_spec_witness :
    insert_command exBin (.dylib "liba") = some (exBin, .segment exSeg) :=
  (insert_command_spec exBin (.dylib "liba") (by decide)).trans (by decide)

/-- C10: `disable_pie` returns `true` and removes exactly the `MH_PIE` flag
(leaving all other flags, the header bookkeeping, the commands and the
symbols untouched) when the flag is set, and returns `false` leaving the
binary completely unchanged when it is not. -/
theorem disable_pie_spec (b : Binary) :
    (has_flag b.header MH_PIE = true →
      (disable_pie b).1 = true ∧
      (∀ f, f ∈ (disable_pie b).2.header.flags ↔ f ∈ b.header.flags ∧ f ≠ MH_PIE) ∧
      (disable_pie b).2.header.ncmds = b.header.ncmds ∧
      (disable_pie b).2.header.sizeof_cmds = b.header.sizeof_cmds ∧
      (disable_pie b).2.commands_ = b.commands_ ∧
      (disable_pie b).2.symbols_ = b.symbols_) ∧
    (has_flag b.header MH_PIE = false → disable_pie b = (false, b)) := by
  constructor
  · intro h
    unfold disable_pie
    rw [if_pos h]
    refine ⟨rfl, ?_, rfl, rfl, rfl, rfl⟩
    intro f
    simp [remove_flag, List.mem_filter, bne_iff_ne]
  · intro h
    unfold disable_pie
    rw [if_neg (by simp [h])]

/-- C10 witness: the example binary has `MH_PIE` set and `disable_pie`
reports the removal. -/
theorem disable_pie_spec_witness : (disable_pie exBin).1 = true :=
  ((disable_pie_spec exBin).1 (by decide)).1

end MachO
